import Mathlib

/-!
# Verification of the interop relay scripts

Shallow embedding of the cross-chain inclusion-proof relay logic of
`src/scripts/interop-test.ts` (and its sibling `src/unnamed/part_000`, which
contains the same waiter functions):

* `waitUntilRootBecomesAvailable` (lines 50-81): bounded polling for the
  destination chain's interop root, with fatal mismatch detection;
* `waitUntilBlockFinalized` (lines 83-106): bounded polling for finality;
* `waitForL2ToL1LogProof` (lines 108-114): finality wait followed by an
  *unbounded* proof-existence polling loop;
* the relay portion of `main` (lines 158-219): bundle-event extraction,
  proof retrieval, L2-to-L1 log selection, root wait, bundle execution;
* the ABI encoding of the interop bundle tuple (lines 173-178), together with
  a canonical decoder modelled from the spec (the decode direction is
  performed by the external ABI library, not by repository code).

Asynchronous fetches are embedded as explicit oracles `Nat → Option α`
mapping the attempt number to the observed value; `none` stands for a thrown
fetch error or a `null` result (the scripts treat both identically).
-/

namespace Interop

/-- `ethers.ZeroAddress`, the 20-byte zero address string compared against at
`src/scripts/interop-test.ts:69`. -/
def ZERO_ADDRESS : String := "0x0000000000000000000000000000000000000000"

/-- The 32-byte all-zero digest string compared against at
`src/scripts/interop-test.ts:69` (written there as `` `0x${"00".repeat(32)}` ``). -/
def ZERO_HASH : String :=
  "0x0000000000000000000000000000000000000000000000000000000000000000"

/-- `POLL_INTERVAL = 100` ms (`src/scripts/interop-test.ts:57,84`). -/
def POLL_INTERVAL : Nat := 100

/-- `DEFAULT_TIMEOUT = 60_000` ms (`src/scripts/interop-test.ts:58,85`). -/
def DEFAULT_TIMEOUT : Nat := 60000

/-- JavaScript `String.prototype.toLowerCase`, as applied to hex strings at
`src/scripts/interop-test.ts:70`. -/
def strLower (s : String) : String := ⟨s.data.map Char.toLower⟩

/-- The availability test of `src/scripts/interop-test.ts:69` applied to a
non-null fetched root: `root && root !== ethers.ZeroAddress && root !== 0x00…00`
(a JavaScript string is truthy iff it is nonempty). -/
def rootAvailable (root : String) : Bool :=
  !(root == "") && !(root == ZERO_ADDRESS) && !(root == ZERO_HASH)

/-- The full guard of `src/scripts/interop-test.ts:69` on the fetch result,
where `none` is a thrown fetch (caught and replaced by `null` at lines 63-67). -/
def rootPresent (root : Option String) : Bool :=
  root.elim false rootAvailable

/-- Result of `waitUntilRootBecomesAvailable`: normal return, the root-mismatch
throw of line 73 (carrying both values), or the timeout throw of line 80. -/
inductive RootWaitResult
  | success
  | mismatch (expected observed : String)
  | timeout
deriving DecidableEq, Repr

/-- Observable outcome of one waiter call: its result, the number of fetch
attempts it performed, and the number of `setTimeout` sleeps it performed. -/
structure WaitOutcome (α : Type) where
  result : α
  fetches : Nat
  sleeps : Nat
deriving DecidableEq, Repr

/-- The `while (retries > 0)` loop of `src/scripts/interop-test.ts:61-78`.
`r` is the remaining `retries` budget and `k` the number of iterations already
performed (so `fetch k` is the current attempt's `contract.interopRoots` call,
with `none` for a throw). Returning inside the loop performs no further sleep;
falling through decrements `retries` and sleeps once. -/
def waitRootGo (fetch : Nat → Option String) (expectedRoot : String) :
    Nat → Nat → WaitOutcome RootWaitResult
  | 0, k => ⟨.timeout, k, k⟩
  | r + 1, k =>
    match fetch k with
    | some root =>
      if rootAvailable root then
        if strLower root = strLower expectedRoot then ⟨.success, k + 1, k⟩
        else ⟨.mismatch expectedRoot root, k + 1, k⟩
      else waitRootGo fetch expectedRoot r (k + 1)
    | none => waitRootGo fetch expectedRoot r (k + 1)

/-- `waitUntilRootBecomesAvailable` (`src/scripts/interop-test.ts:50-81`), with
the interval and timeout constants as parameters; the script instantiates them
with `POLL_INTERVAL` and `DEFAULT_TIMEOUT`. The initial budget is
`Math.floor(DEFAULT_TIMEOUT / POLL_INTERVAL)` (line 59). -/
def waitUntilRootBecomesAvailable (fetch : Nat → Option String)
    (expectedRoot : String) (interval timeout : Nat) : WaitOutcome RootWaitResult :=
  waitRootGo fetch expectedRoot (timeout / interval) 0

/-- Result of `waitUntilBlockFinalized`: normal return or the timeout throw of
`src/scripts/interop-test.ts:105`. -/
inductive FinalityResult
  | success
  | timeout
deriving DecidableEq, Repr

/-- The `while (retries > 0)` loop of `src/scripts/interop-test.ts:88-103`.
`fetch k` is the attempt's `provider.getBlock("finalized")` observation:
`some n` for a block of height `n`, `none` when the call throws or returns a
null block — both cases set `executedBlock = 0` (lines 92-94). -/
def waitFinGo (fetch : Nat → Option Nat) (blockNumber : Nat) :
    Nat → Nat → WaitOutcome FinalityResult
  | 0, k => ⟨.timeout, k, k⟩
  | r + 1, k =>
    if blockNumber ≤ (fetch k).getD 0 then ⟨.success, k + 1, k⟩
    else waitFinGo fetch blockNumber r (k + 1)

/-- `waitUntilBlockFinalized` (`src/scripts/interop-test.ts:83-106`), with the
interval and timeout constants as parameters. -/
def waitUntilBlockFinalized (fetch : Nat → Option Nat) (blockNumber : Nat)
    (interval timeout : Nat) : WaitOutcome FinalityResult :=
  waitFinGo fetch blockNumber (timeout / interval) 0

/-- The `{batch_number, id, root, proof[]}` record returned by
`provider.getLogProof` (consumed at `src/scripts/interop-test.ts:186-201`). -/
structure LogProofData where
  batch_number : Nat
  id : Nat
  root : String
  proof : List String
deriving DecidableEq, Repr

/-- The proof-polling loop of `src/scripts/interop-test.ts:111-113`:
`while (getLogProof(txHash, 0) == null) sleep(pollingInterval)`. The loop has
no retry budget in the source; `fuel` is an observation horizon only: the first
component counts the fetch attempts made within the horizon, and a `none`
second component means the loop is still running after `fuel` iterations. -/
def proofPollGo (fetch : Nat → Option LogProofData) :
    Nat → Nat → Nat × Option LogProofData
  | 0, k => (k, none)
  | fuel + 1, k =>
    match fetch k with
    | some p => (k + 1, some p)
    | none => proofPollGo fetch fuel (k + 1)

/-- The proof-polling loop observed for `fuel` iterations from its start. -/
def proofPollRun (fetch : Nat → Option LogProofData) (fuel : Nat) :
    Option LogProofData :=
  (proofPollGo fetch fuel 0).2

/-- Outcome of `waitForL2ToL1LogProof` within a finite observation horizon:
the finality wait threw its timeout, or the unbounded proof loop is still
polling after the horizon, or the loop exited because a proof appeared. -/
inductive ProofWaitResult
  | finalityTimeout
  | stillPolling
  | obtained (p : LogProofData)
deriving DecidableEq, Repr

/-- `waitForL2ToL1LogProof` (`src/scripts/interop-test.ts:108-114`): first
await `waitUntilBlockFinalized` (whose timeout throw propagates), then run the
unbounded proof-polling loop, observed for `fuel` iterations. -/
def waitForL2ToL1LogProof (finFetch : Nat → Option Nat) (blockNumber : Nat)
    (proofFetch : Nat → Option LogProofData) (fuel : Nat) : ProofWaitResult :=
  match (waitUntilBlockFinalized finFetch blockNumber POLL_INTERVAL DEFAULT_TIMEOUT).result with
  | .timeout => .finalityTimeout
  | .success =>
    match proofPollRun proofFetch fuel with
    | some p => .obtained p
    | none => .stillPolling

/-! ## Helper lemmas about the polling loops -/

theorem waitRootGo_skip (fetch : Nat → Option String) (e : String) (r k : Nat)
    (h : rootPresent (fetch k) = false) :
    waitRootGo fetch e (r + 1) k = waitRootGo fetch e r (k + 1) := by
  cases hf : fetch k with
  | none => simp [waitRootGo, hf]
  | some v =>
    have hv : rootAvailable v = false := by simpa [rootPresent, hf] using h
    simp [waitRootGo, hf, hv]

theorem waitRootGo_skipN (fetch : Nat → Option String) (e : String) (m : Nat) :
    ∀ r k, (∀ j, k ≤ j → j < k + m → rootPresent (fetch j) = false) →
      waitRootGo fetch e (m + r) k = waitRootGo fetch e r (k + m) := by
  induction m with
  | zero => intro r k _h; simp
  | succ m ih =>
    intro r k h
    have hk : rootPresent (fetch k) = false := h k le_rfl (by omega)
    have hstep : waitRootGo fetch e (m + 1 + r) k = waitRootGo fetch e (m + r) (k + 1) := by
      have hs := waitRootGo_skip fetch e (m + r) k hk
      have harith : m + 1 + r = m + r + 1 := by omega
      rw [harith]; exact hs
    rw [hstep, ih r (k + 1) (fun j hj1 hj2 => h j (by omega) (by omega))]
    have harith2 : k + 1 + m = k + (m + 1) := by omega
    rw [harith2]

theorem waitRootGo_hit (fetch : Nat → Option String) (e : String) (r k : Nat) (v : String)
    (hv : fetch k = some v) (hav : rootAvailable v = true) :
    waitRootGo fetch e (r + 1) k =
      if strLower v = strLower e then ⟨.success, k + 1, k⟩ else ⟨.mismatch e v, k + 1, k⟩ := by
  simp [waitRootGo, hv, hav]

theorem waitRootGo_absent (fetch : Nat → Option String) (e : String)
    (h : ∀ j, rootPresent (fetch j) = false) :
    ∀ r k, waitRootGo fetch e r k = ⟨.timeout, k + r, k + r⟩ := by
  intro r
  induction r with
  | zero => intro k; simp [waitRootGo]
  | succ r ih =>
    intro k
    rw [waitRootGo_skip fetch e r k (h k), ih (k + 1)]
    have harith : k + 1 + r = k + (r + 1) := by omega
    rw [harith]

theorem waitFinGo_skip (fetch : Nat → Option Nat) (bn r k : Nat)
    (h : (fetch k).getD 0 < bn) :
    waitFinGo fetch bn (r + 1) k = waitFinGo fetch bn r (k + 1) := by
  simp only [waitFinGo]
  rw [if_neg (Nat.not_le.mpr h)]

theorem waitFinGo_skipN (fetch : Nat → Option Nat) (bn : Nat) (m : Nat) :
    ∀ r k, (∀ j, k ≤ j → j < k + m → (fetch j).getD 0 < bn) →
      waitFinGo fetch bn (m + r) k = waitFinGo fetch bn r (k + m) := by
  induction m with
  | zero => intro r k _h; simp
  | succ m ih =>
    intro r k h
    have hk : (fetch k).getD 0 < bn := h k le_rfl (by omega)
    have hstep : waitFinGo fetch bn (m + 1 + r) k = waitFinGo fetch bn (m + r) (k + 1) := by
      have hs := waitFinGo_skip fetch bn (m + r) k hk
      have harith : m + 1 + r = m + r + 1 := by omega
      rw [harith]; exact hs
    rw [hstep, ih r (k + 1) (fun j hj1 hj2 => h j (by omega) (by omega))]
    have harith2 : k + 1 + m = k + (m + 1) := by omega
    rw [harith2]

theorem waitFinGo_hit (fetch : Nat → Option Nat) (bn r k : Nat)
    (h : bn ≤ (fetch k).getD 0) :
    waitFinGo fetch bn (r + 1) k = ⟨.success, k + 1, k⟩ := by
  simp only [waitFinGo]
  rw [if_pos h]

theorem waitFinGo_absent (fetch : Nat → Option Nat) (bn : Nat)
    (h : ∀ j, (fetch j).getD 0 < bn) :
    ∀ r k, waitFinGo fetch bn r k = ⟨.timeout, k + r, k + r⟩ := by
  intro r
  induction r with
  | zero => intro k; simp [waitFinGo]
  | succ r ih =>
    intro k
    rw [waitFinGo_skip fetch bn r k (h k), ih (k + 1)]
    have harith : k + 1 + r = k + (r + 1) := by omega
    rw [harith]

/-- C1: on the first polling attempt `k` at which the root-availability waiter
observes a non-zero root value `v`, it returns success immediately when `v`
equals `expectedRoot` case-insensitively, and otherwise terminates immediately
with a root-mismatch error carrying both the expected and the observed value;
either way it performs exactly `k + 1` fetch attempts, none after that
observation. -/
theorem C1_root_first_nonzero_decides (fetch : Nat → Option String)
    (expectedRoot : String) (interval timeout k : Nat) (v : String)
    (hk : k < timeout / interval)
    (hbefore : ∀ j, j < k → rootPresent (fetch j) = false)
    (hv : fetch k = some v) (hav : rootAvailable v = true) :
    waitUntilRootBecomesAvailable fetch expectedRoot interval timeout =
      if strLower v = strLower expectedRoot then ⟨.success, k + 1, k⟩
      else ⟨.mismatch expectedRoot v, k + 1, k⟩ := by
  unfold waitUntilRootBecomesAvailable
  obtain ⟨d, hd⟩ : ∃ d, timeout / interval = k + (d + 1) := ⟨timeout / interval - k - 1, by omega⟩
  rw [hd, waitRootGo_skipN fetch expectedRoot k (d + 1) 0
    (fun j hj1 hj2 => hbefore j (by omega))]
  have h0 : 0 + k = k := by omega
  rw [h0, waitRootGo_hit fetch expectedRoot d k v hv hav]

theorem C1_witness :
    waitUntilRootBecomesAvailable (fun j => if j = 0 then none else some "0xab") "0xAB"
      POLL_INTERVAL DEFAULT_TIMEOUT = ⟨.success, 2, 1⟩ := by
  rw [C1_root_first_nonzero_decides (fun j => if j = 0 then none else some "0xab") "0xAB"
    POLL_INTERVAL DEFAULT_TIMEOUT 1 "0xab" (by decide)
    (by intro j hj; simp [rootPresent, Nat.lt_one_iff.mp hj]) (by decide) (by decide)]
  decide

/-- C3: given an always-absent fetch closure, both bounded waiters terminate
with the timeout error after exactly `timeout / interval` fetch attempts, each
followed by one sleep of one interval, so the total slept time
`(timeout / interval) * interval` lies within `[timeout - interval, timeout + interval]`. -/
theorem C3_absent_fetch_times_out (interval timeout : Nat) (hi : 0 < interval)
    (rootFetch : Nat → Option String) (expectedRoot : String)
    (hroot : ∀ j, rootPresent (rootFetch j) = false)
    (finFetch : Nat → Option Nat) (blockNumber : Nat)
    (hfin : ∀ j, (finFetch j).getD 0 < blockNumber) :
    waitUntilRootBecomesAvailable rootFetch expectedRoot interval timeout =
      ⟨.timeout, timeout / interval, timeout / interval⟩ ∧
    waitUntilBlockFinalized finFetch blockNumber interval timeout =
      ⟨.timeout, timeout / interval, timeout / interval⟩ ∧
    timeout - interval ≤ (timeout / interval) * interval ∧
    (timeout / interval) * interval ≤ timeout + interval := by
  refine ⟨?_, ?_, ?_, ?_⟩
  · unfold waitUntilRootBecomesAvailable
    simpa using waitRootGo_absent rootFetch expectedRoot hroot (timeout / interval) 0
  · unfold waitUntilBlockFinalized
    simpa using waitFinGo_absent finFetch blockNumber hfin (timeout / interval) 0
  · have hmod : timeout % interval < interval := Nat.mod_lt _ hi
    have heq : interval * (timeout / interval) + timeout % interval = timeout :=
      Nat.div_add_mod timeout interval
    rw [Nat.sub_le_iff_le_add, Nat.mul_comm]
    omega
  · exact le_trans (Nat.div_mul_le_self _ _) (Nat.le_add_right _ _)

theorem C3_witness :
    waitUntilRootBecomesAvailable (fun _ => none) "0xr1" 100 60000 =
      ⟨.timeout, 600, 600⟩ ∧
    waitUntilBlockFinalized (fun _ => none) 1 100 60000 = ⟨.timeout, 600, 600⟩ ∧
    60000 - 100 ≤ 600 * 100 ∧ 600 * 100 ≤ 60000 + 100 := by
  have h := C3_absent_fetch_times_out 100 60000 (by decide) (fun _ => none) "0xr1"
    (by intro j; rfl) (fun _ => none) 1 (by intro j; simp)
  simpa using h

/-- C5: a fetch closure that throws on the first `n` attempts and returns the
sought value on attempt `n + 1` still yields success for both bounded waiters,
provided `n + 1` does not exceed the attempt budget `timeout / interval`; the
thrown attempts are treated as not-yet-available and never abort the waiter. -/
theorem C5_transient_throws_tolerated (interval timeout n : Nat)
    (hn : n < timeout / interval)
    (rootFetch : Nat → Option String) (expectedRoot : String)
    (hthrow : ∀ j, j < n → rootFetch j = none)
    (v : String) (hv : rootFetch n = some v) (hav : rootAvailable v = true)
    (hmatched : strLower v = strLower expectedRoot)
    (finFetch : Nat → Option Nat) (blockNumber : Nat) (hbn : 0 < blockNumber)
    (hthrow2 : ∀ j, j < n → finFetch j = none)
    (b : Nat) (hb : finFetch n = some b) (hbge : blockNumber ≤ b) :
    waitUntilRootBecomesAvailable rootFetch expectedRoot interval timeout =
      ⟨.success, n + 1, n⟩ ∧
    waitUntilBlockFinalized finFetch blockNumber interval timeout =
      ⟨.success, n + 1, n⟩ := by
  obtain ⟨d, hd⟩ : ∃ d, timeout / interval = n + (d + 1) := ⟨timeout / interval - n - 1, by omega⟩
  constructor
  · unfold waitUntilRootBecomesAvailable
    rw [hd, waitRootGo_skipN rootFetch expectedRoot n (d + 1) 0
      (fun j hj1 hj2 => by simp [rootPresent, hthrow j (by omega)])]
    have h0 : 0 + n = n := by omega
    rw [h0, waitRootGo_hit rootFetch expectedRoot d n v hv hav, if_pos hmatched]
  · unfold waitUntilBlockFinalized
    rw [hd, waitFinGo_skipN finFetch blockNumber n (d + 1) 0
      (fun j hj1 hj2 => by simp [hthrow2 j (by omega), hbn])]
    have h0 : 0 + n = n := by omega
    rw [h0, waitFinGo_hit finFetch blockNumber d n (by simp [hb, hbge])]

theorem C5_witness :
    waitUntilRootBecomesAvailable (fun j => if j < 2 then none else some "0xr1") "0xR1"
      100 60000 = ⟨.success, 3, 2⟩ ∧
    waitUntilBlockFinalized (fun j => if j < 2 then none else some 9) 4 100 60000 =
      ⟨.success, 3, 2⟩ := by
  have h := C5_transient_throws_tolerated 100 60000 2 (by decide)
    (fun j => if j < 2 then none else some "0xr1") "0xR1"
    (by intro j hj; simp [hj]) "0xr1" (by decide) (by decide) (by decide)
    (fun j => if j < 2 then none else some 9) 4 (by decide)
    (by intro j hj; simp [hj]) 9 (by decide) (by decide)
  simpa using h

/-! ## Normalized hex strings

`ethers` returns `bytes32` values as `0x`-prefixed lowercase hex strings; the
comparisons at `src/scripts/interop-test.ts:69-70` rely on this normal form.
-/

/-- The characters that can occur in a normalized `0x`-prefixed lowercase hex
string. -/
def lowerHexChars : List Char := "0123456789abcdefx".data

/-- A string drawn from the lowercase-hex alphabet, as `ethers` produces for
`bytes32` return values. -/
def normalizedHex (s : String) : Bool :=
  s.data.all fun c => decide (c ∈ lowerHexChars)

theorem toLower_mem_lowerHexChars : ∀ c ∈ lowerHexChars, Char.toLower c = c := by decide

theorem map_toLower_fixed :
    ∀ l : List Char, (∀ c ∈ l, Char.toLower c = c) → l.map Char.toLower = l := by
  intro l
  induction l with
  | nil => intro _; rfl
  | cons a t ih =>
    intro h
    simp only [List.map_cons]
    rw [h a (by simp), ih (fun c hc => h c (by simp [hc]))]

theorem strLower_of_normalizedHex (s : String) (h : normalizedHex s = true) :
    strLower s = s := by
  have hall : ∀ c ∈ s.data, Char.toLower c = c := by
    intro c hc
    have hmem := List.all_eq_true.mp h c hc
    exact toLower_mem_lowerHexChars c (of_decide_eq_true hmem)
  show String.mk (s.data.map Char.toLower) = s
  rw [map_toLower_fixed s.data hall]

theorem strLower_ZERO_HASH : strLower ZERO_HASH = ZERO_HASH :=
  strLower_of_normalizedHex ZERO_HASH (by decide)

theorem waitRootGo_zero_expected_no_success (fetch : Nat → Option String)
    (hwf : ∀ k v, fetch k = some v → normalizedHex v = true) :
    ∀ r k, (waitRootGo fetch ZERO_HASH r k).result ≠ .success := by
  intro r
  induction r with
  | zero => intro k; simp [waitRootGo]
  | succ r ih =>
    intro k
    cases hf : fetch k with
    | none =>
      rw [waitRootGo_skip fetch ZERO_HASH r k (by simp [rootPresent, hf])]
      exact ih (k + 1)
    | some v =>
      cases hav : rootAvailable v with
      | false =>
        rw [waitRootGo_skip fetch ZERO_HASH r k (by simp [rootPresent, hf, hav])]
        exact ih (k + 1)
      | true =>
        rw [waitRootGo_hit fetch ZERO_HASH r k v hf hav]
        by_cases hm : strLower v = strLower ZERO_HASH
        · exfalso
          rw [strLower_of_normalizedHex v (hwf k v hf), strLower_ZERO_HASH] at hm
          subst hm
          have hz : rootAvailable ZERO_HASH = false := by decide
          rw [hz] at hav
          exact Bool.false_ne_true hav
        · simp [if_neg hm]

/-- C9: the root-availability waiter treats a null/thrown fetch, the 20-byte
zero address string, and the 32-byte all-zero digest all as not yet available
and keeps retrying until the budget is exhausted; consequently, when
`expectedRoot` is itself the 32-byte zero digest the waiter can never return
success (every observed root is a normalized lowercase hex string), and if the
stored root stays zero it terminates with the timeout error. -/
theorem C9_zero_roots_never_succeed (fetch : Nat → Option String)
    (expectedRoot : String)
    (hwf : ∀ k v, fetch k = some v → normalizedHex v = true) :
    ((∀ j, fetch j = none ∨ fetch j = some ZERO_ADDRESS ∨ fetch j = some ZERO_HASH) →
      waitUntilRootBecomesAvailable fetch expectedRoot POLL_INTERVAL DEFAULT_TIMEOUT =
        ⟨.timeout, DEFAULT_TIMEOUT / POLL_INTERVAL, DEFAULT_TIMEOUT / POLL_INTERVAL⟩) ∧
    (expectedRoot = ZERO_HASH →
      (waitUntilRootBecomesAvailable fetch expectedRoot POLL_INTERVAL
          DEFAULT_TIMEOUT).result ≠ .success) := by
  constructor
  · intro hz
    have habs : ∀ j, rootPresent (fetch j) = false := by
      intro j
      rcases hz j with h | h | h
      · rw [h]; rfl
      · rw [h]; decide
      · rw [h]; decide
    unfold waitUntilRootBecomesAvailable
    simpa using waitRootGo_absent fetch expectedRoot habs (DEFAULT_TIMEOUT / POLL_INTERVAL) 0
  · intro hz
    subst hz
    unfold waitUntilRootBecomesAvailable
    exact waitRootGo_zero_expected_no_success fetch hwf (DEFAULT_TIMEOUT / POLL_INTERVAL) 0

theorem C9_witness :
    (waitUntilRootBecomesAvailable (fun _ => some ZERO_HASH) ZERO_HASH POLL_INTERVAL
        DEFAULT_TIMEOUT =
      ⟨.timeout, DEFAULT_TIMEOUT / POLL_INTERVAL, DEFAULT_TIMEOUT / POLL_INTERVAL⟩) ∧
    (waitUntilRootBecomesAvailable (fun _ => some ZERO_HASH) ZERO_HASH POLL_INTERVAL
        DEFAULT_TIMEOUT).result ≠ .success := by
  have h := C9_zero_roots_never_succeed (fun _ => some ZERO_HASH) ZERO_HASH
    (by intro k v hv; injection hv with h2; rw [← h2]; decide)
  exact ⟨h.1 (fun j => Or.inr (Or.inr rfl)), h.2 rfl⟩

/-! ## The unbounded proof-polling loop (claim C2) -/

theorem proofPollGo_none_forever (fetch : Nat → Option LogProofData)
    (hf : ∀ j, fetch j = none) :
    ∀ fuel k, proofPollGo fetch fuel k = (k + fuel, none) := by
  intro fuel
  induction fuel with
  | zero => intro k; simp [proofPollGo]
  | succ fuel ih =>
    intro k
    simp only [proofPollGo, hf k]
    rw [ih (k + 1)]
    have harith : k + 1 + fuel = k + (fuel + 1) := by omega
    rw [harith]

theorem proofPollGo_skipN (fetch : Nat → Option LogProofData) (m : Nat) :
    ∀ fuel k, (∀ j, k ≤ j → j < k + m → fetch j = none) →
      proofPollGo fetch (m + fuel) k = proofPollGo fetch fuel (k + m) := by
  induction m with
  | zero => intro fuel k _h; simp
  | succ m ih =>
    intro fuel k h
    have hk : fetch k = none := h k le_rfl (by omega)
    have hstep : proofPollGo fetch (m + 1 + fuel) k = proofPollGo fetch (m + fuel) (k + 1) := by
      have harith : m + 1 + fuel = m + fuel + 1 := by omega
      rw [harith]
      simp only [proofPollGo, hk]
    rw [hstep, ih fuel (k + 1) (fun j hj1 hj2 => h j (by omega) (by omega))]
    have harith2 : k + 1 + m = k + (m + 1) := by omega
    rw [harith2]

theorem proofPollGo_hit (fetch : Nat → Option LogProofData) (fuel k : Nat)
    (p : LogProofData) (hp : fetch k = some p) :
    proofPollGo fetch (fuel + 1) k = (k + 1, some p) := by
  simp [proofPollGo, hp]

/-- The proof-polling loop of `waitForL2ToL1LogProof` never exits, at any
observation horizon: the situation the source exhibits when `getLogProof`
keeps returning `null`. -/
def proofWaitNeverReturns (finFetch : Nat → Option Nat) (blockNumber : Nat)
    (proofFetch : Nat → Option LogProofData) : Prop :=
  ∀ fuel, waitForL2ToL1LogProof finFetch blockNumber proofFetch fuel = .stillPolling

/-- C2 counterexample: with a finality fetch that succeeds immediately and a
proof fetch that always returns `null`, `waitForL2ToL1LogProof` is still
polling after every number of iterations — it never returns a proof and never
reports a timeout, refuting the claim that the proof-fetching operation always
terminates with a proof or a timeout error. -/
theorem C2_counterexample :
    proofWaitNeverReturns (fun _ => some 1) 1 (fun _ => none) := by
  intro fuel
  have hfin : waitUntilBlockFinalized (fun _ => some 1) 1 POLL_INTERVAL DEFAULT_TIMEOUT =
      ⟨.success, 1, 0⟩ := by
    unfold waitUntilBlockFinalized
    have h600 : DEFAULT_TIMEOUT / POLL_INTERVAL = 599 + 1 := by
      norm_num [DEFAULT_TIMEOUT, POLL_INTERVAL]
    rw [h600, waitFinGo_hit (fun _ => some 1) 1 599 0 (by simp)]
  have hrun : proofPollRun (fun _ => none) fuel = none := by
    unfold proofPollRun
    rw [proofPollGo_none_forever (fun _ => none) (fun _ => rfl) fuel 0]
  unfold waitForL2ToL1LogProof
  rw [hfin, hrun]

/-- C2 amended: only the finality phase of `waitForL2ToL1LogProof` is bounded
by a timeout. If the proof query first returns a proof `p` on attempt `k`,
then at every horizon past `k` the operation either reports the finality
timeout or returns `p`; but with a proof query that always returns `null` the
operation never returns a proof — at every horizon it has either reported the
finality timeout or is still polling, forever. -/
theorem C2_amended_proof_phase_unbounded (finFetch : Nat → Option Nat)
    (blockNumber : Nat) (proofFetch : Nat → Option LogProofData) (k : Nat)
    (p : LogProofData)
    (hbefore : ∀ j, j < k → proofFetch j = none) (hk : proofFetch k = some p) :
    (∀ fuel, k < fuel →
      waitForL2ToL1LogProof finFetch blockNumber proofFetch fuel = .finalityTimeout ∨
      waitForL2ToL1LogProof finFetch blockNumber proofFetch fuel = .obtained p) ∧
    (∀ fuel,
      waitForL2ToL1LogProof finFetch blockNumber (fun _ => none) fuel = .finalityTimeout ∨
      waitForL2ToL1LogProof finFetch blockNumber (fun _ => none) fuel = .stillPolling) := by
  constructor
  · intro fuel hfuel
    unfold waitForL2ToL1LogProof
    cases hfin : (waitUntilBlockFinalized finFetch blockNumber POLL_INTERVAL
        DEFAULT_TIMEOUT).result with
    | timeout => exact Or.inl rfl
    | success =>
      refine Or.inr ?_
      have hrun : proofPollRun proofFetch fuel = some p := by
        unfold proofPollRun
        obtain ⟨d, hd⟩ : ∃ d, fuel = k + (d + 1) := ⟨fuel - k - 1, by omega⟩
        rw [hd, proofPollGo_skipN proofFetch k (d + 1) 0
          (fun j hj1 hj2 => hbefore j (by omega))]
        have h0 : 0 + k = k := by omega
        rw [h0, proofPollGo_hit proofFetch d k p hk]
      rw [hrun]
  · intro fuel
    unfold waitForL2ToL1LogProof
    cases hfin : (waitUntilBlockFinalized finFetch blockNumber POLL_INTERVAL
        DEFAULT_TIMEOUT).result with
    | timeout => exact Or.inl rfl
    | success =>
      refine Or.inr ?_
      have hrun : proofPollRun (fun _ => none) fuel = none := by
        unfold proofPollRun
        rw [proofPollGo_none_forever (fun _ => none) (fun _ => rfl) fuel 0]
      rw [hrun]

theorem C2_amended_witness :
    (∀ fuel, 1 < fuel →
      waitForL2ToL1LogProof (fun _ => some 5) 1
          (fun j => if j = 0 then none else some ⟨7, 0, "0xr1", []⟩) fuel =
        .finalityTimeout ∨
      waitForL2ToL1LogProof (fun _ => some 5) 1
          (fun j => if j = 0 then none else some ⟨7, 0, "0xr1", []⟩) fuel =
        .obtained ⟨7, 0, "0xr1", []⟩) ∧
    (∀ fuel,
      waitForL2ToL1LogProof (fun _ => some 5) 1 (fun _ => none) fuel = .finalityTimeout ∨
      waitForL2ToL1LogProof (fun _ => some 5) 1 (fun _ => none) fuel = .stillPolling) :=
  C2_amended_proof_phase_unbounded (fun _ => some 5) 1
    (fun j => if j = 0 then none else some ⟨7, 0, "0xr1", []⟩) 1 ⟨7, 0, "0xr1", []⟩
    (by intro j hj; simp [Nat.lt_one_iff.mp hj]) (by simp)

/-! ## The message bundle and the relay portion of `main`

(`src/scripts/interop-test.ts:158-219`.)
-/

/-- One call of the bundle, per the tuple component
`tuple(bytes1 version, bool shadowAccount, address to, address from,
uint256 value, bytes data)` of `src/scripts/interop-test.ts:176`. Numeric
fields are machine integers modelled as `Nat` with explicit range bounds in
`ValidCall`; `data` is a byte list. `to` and `from` are Lean keywords, hence
`toAddr` and `fromAddr`. -/
structure Call where
  version : Nat
  shadowAccount : Bool
  toAddr : Nat
  fromAddr : Nat
  value : Nat
  data : List Nat
deriving DecidableEq, Repr

/-- `tuple(bytes executionAddress, bytes unbundlerAddress)` of
`src/scripts/interop-test.ts:177`. -/
structure BundleAttributes where
  executionAddress : List Nat
  unbundlerAddress : List Nat
deriving DecidableEq, Repr

/-- The interop bundle, per the tuple schema of
`src/scripts/interop-test.ts:174-177`: `(bytes1 version, uint256 sourceChainId,
uint256 destinationChainId, bytes32 interopBundleSalt, calls[],
bundleAttributes)`. -/
structure Bundle where
  version : Nat
  sourceChainId : Nat
  destinationChainId : Nat
  interopBundleSalt : Nat
  calls : List Call
  bundleAttributes : BundleAttributes
deriving DecidableEq, Repr

/-- A successfully parsed receipt log, as returned by
`interopIface.parseLog` (`src/scripts/interop-test.ts:162`): the event name and
the `interopBundle` argument read at line 173. -/
structure ParsedLog where
  name : String
  interopBundle : Bundle
deriving DecidableEq, Repr

/-- An entry of `receipt.l2ToL1Logs` (`src/scripts/interop-test.ts:187,198-199`). -/
structure L2ToL1LogEntry where
  sender : String
  data : String
deriving DecidableEq, Repr

/-- The fields of the mined send-message receipt the relay flow reads
(`src/scripts/interop-test.ts:156-197`). `logs` and `l2ToL1Logs` are `Option`s
because the script guards them (`sendReceipt.logs ?? []`,
`sendReceipt.l2ToL1Logs?.[…]`). `Log` is the type of raw receipt log entries,
opaque to the flow: only `parseLog` interprets them. -/
structure Receipt (Log : Type) where
  hash : String
  blockNumber : Nat
  index : Nat
  logs : Option (List Log)
  l2ToL1Logs : Option (List L2ToL1LogEntry)

/-- The `bundleEvent` computation of `src/scripts/interop-test.ts:159-167`:
map every receipt log through `parseLog` (a throwing parse becomes `null`),
then take the first result whose `name` is `"InteropBundleSent"`. -/
def bundleEvent {Log : Type} (parseLog : Log → Option ParsedLog)
    (logs : List Log) : Option ParsedLog :=
  ((logs.map parseLog).find? fun parsed =>
    parsed.elim false fun p => p.name == "InteropBundleSent").join

/-- The log selection of `src/scripts/interop-test.ts:187`:
`sendReceipt.l2ToL1Logs?.[logIndex] ?? sendReceipt.l2ToL1Logs?.[0]`. -/
def l2ToL1Log (entries : Option (List L2ToL1LogEntry)) (logIndex : Nat) :
    Option L2ToL1LogEntry :=
  (entries.bind fun ls => ls[logIndex]?).orElse fun _ => entries.bind fun ls => ls[0]?

/-- The chain interactions of the relay flow, in program order. `finalityFetch`
and `rootFetch` record the attempt number; `proofFetch` records the arguments
passed to `provider.getLogProof`. -/
inductive Event
  | finalityFetch (k : Nat)
  | finalitySuccess
  | proofFetch (txHash : String) (logIndex : Nat)
  | rootFetch (k : Nat)
  | execute
deriving DecidableEq, Repr

/-- Terminal outcome of the relay portion of `main`: each error constructor is
one of the `throw` sites of `src/scripts/interop-test.ts:158-219`, `executed`
is reaching the `executeBundle` call, and `stillPollingProof` means the
unbounded proof loop has not exited within the observation horizon. -/
inductive FlowResult
  | missingEvent
  | finalityTimeout
  | stillPollingProof
  | missingLogProof
  | missingL2ToL1Log
  | rootMismatch (expected observed : String)
  | rootTimeout
  | executed
deriving DecidableEq, Repr

/-- The steps of `main` that follow a successful finality wait
(`src/scripts/interop-test.ts:111-219`): poll `getLogProof(hash, 0)` until
non-null (lines 111-113, unbounded — `fuel` is the observation horizon),
re-query `getLogProof(hash, 0)` (line 181, fatal when null), select the
L2-to-L1 log at the proof's reported index with fallback to index 0
(lines 186-190, fatal when both absent), wait for the interop root to equal
the proof's root (lines 204-209), then execute the bundle (line 213).
The second component is the trace of chain interactions. -/
def relayAfterFinality {Log : Type} (receipt : Receipt Log)
    (proofFetch : Nat → Option LogProofData) (rootFetch : Nat → Option String)
    (fuel : Nat) : FlowResult × List Event :=
  let poll := proofPollGo proofFetch fuel 0
  let pollEvts := (List.range poll.1).map fun _ => Event.proofFetch receipt.hash 0
  match poll.2 with
  | none => (.stillPollingProof, pollEvts)
  | some _ =>
    let evts1 := pollEvts ++ [Event.proofFetch receipt.hash 0]
    match proofFetch poll.1 with
    | none => (.missingLogProof, evts1)
    | some lp =>
      match l2ToL1Log receipt.l2ToL1Logs lp.id with
      | none => (.missingL2ToL1Log, evts1)
      | some _entry =>
        let rw := waitUntilRootBecomesAvailable rootFetch lp.root POLL_INTERVAL DEFAULT_TIMEOUT
        let evts2 := evts1 ++ (List.range rw.fetches).map Event.rootFetch
        match rw.result with
        | .timeout => (.rootTimeout, evts2)
        | .mismatch e o => (.rootMismatch e o, evts2)
        | .success => (.executed, evts2 ++ [Event.execute])

/-- The relay portion of `main` (`src/scripts/interop-test.ts:158-219`),
starting from the mined send-message receipt, with `waitForL2ToL1LogProof`
inlined so the event trace can account for every fetch: extract the
`InteropBundleSent` event (lines 159-171, fatal when absent), wait for
finality of the receipt's block (line 109), then run `relayAfterFinality`.
The second component is the trace of chain interactions, in program order. -/
def relayFlow {Log : Type} (parseLog : Log → Option ParsedLog)
    (receipt : Receipt Log) (finFetch : Nat → Option Nat)
    (proofFetch : Nat → Option LogProofData) (rootFetch : Nat → Option String)
    (fuel : Nat) : FlowResult × List Event :=
  match bundleEvent parseLog (receipt.logs.getD []) with
  | none => (.missingEvent, [])
  | some _ev =>
    let fin := waitUntilBlockFinalized finFetch receipt.blockNumber POLL_INTERVAL DEFAULT_TIMEOUT
    let finEvts := (List.range fin.fetches).map Event.finalityFetch
    match fin.result with
    | .timeout => (.finalityTimeout, finEvts)
    | .success =>
      let tail := relayAfterFinality receipt proofFetch rootFetch fuel
      (tail.1, finEvts ++ Event.finalitySuccess :: tail.2)

/-! ## Structural lemmas about the relay flow -/

theorem mem_constMap {α : Type} {c e : α} {n : Nat}
    (h : e ∈ (List.range n).map fun _ => c) : e = c := by
  rcases List.mem_map.mp h with ⟨a, _, ha⟩
  exact ha.symm

theorem relayAfterFinality_events {Log : Type} (receipt : Receipt Log)
    (proofFetch : Nat → Option LogProofData) (rootFetch : Nat → Option String)
    (fuel : Nat) :
    ∀ e ∈ (relayAfterFinality receipt proofFetch rootFetch fuel).2,
      e = Event.proofFetch receipt.hash 0 ∨ (∃ k, e = Event.rootFetch k) ∨
      e = Event.execute := by
  intro e he
  simp only [relayAfterFinality] at he
  split at he
  · exact Or.inl (mem_constMap he)
  · split at he
    · dsimp only at he
      rcases List.mem_append.mp he with hA | hB
      · exact Or.inl (mem_constMap hA)
      · exact Or.inl (by simpa using hB)
    · split at he
      · dsimp only at he
        rcases List.mem_append.mp he with hA | hB
        · exact Or.inl (mem_constMap hA)
        · exact Or.inl (by simpa using hB)
      · split at he
        all_goals dsimp only at he
        · rcases List.mem_append.mp he with hA | hB
          · rcases List.mem_append.mp hA with hA1 | hA2
            · exact Or.inl (mem_constMap hA1)
            · exact Or.inl (by simpa using hA2)
          · rcases List.mem_map.mp hB with ⟨k, _, hk⟩
            exact Or.inr (Or.inl ⟨k, hk.symm⟩)
        · rcases List.mem_append.mp he with hA | hB
          · rcases List.mem_append.mp hA with hA1 | hA2
            · exact Or.inl (mem_constMap hA1)
            · exact Or.inl (by simpa using hA2)
          · rcases List.mem_map.mp hB with ⟨k, _, hk⟩
            exact Or.inr (Or.inl ⟨k, hk.symm⟩)
        · rcases List.mem_append.mp he with hC | hD
          · rcases List.mem_append.mp hC with hA | hB
            · rcases List.mem_append.mp hA with hA1 | hA2
              · exact Or.inl (mem_constMap hA1)
              · exact Or.inl (by simpa using hA2)
            · rcases List.mem_map.mp hB with ⟨k, _, hk⟩
              exact Or.inr (Or.inl ⟨k, hk.symm⟩)
          · exact Or.inr (Or.inr (by simpa using hD))

theorem relayAfterFinality_ne_missingEvent {Log : Type} (receipt : Receipt Log)
    (proofFetch : Nat → Option LogProofData) (rootFetch : Nat → Option String)
    (fuel : Nat) :
    (relayAfterFinality receipt proofFetch rootFetch fuel).1 ≠ .missingEvent := by
  simp only [relayAfterFinality]
  split
  · simp
  · split
    · simp
    · split
      · simp
      · split <;> simp

theorem relayFlow_trace_cases {Log : Type} (parseLog : Log → Option ParsedLog)
    (receipt : Receipt Log) (finFetch : Nat → Option Nat)
    (proofFetch : Nat → Option LogProofData) (rootFetch : Nat → Option String)
    (fuel : Nat) :
    (relayFlow parseLog receipt finFetch proofFetch rootFetch fuel).2 = [] ∨
    (∃ n, (relayFlow parseLog receipt finFetch proofFetch rootFetch fuel).2 =
      (List.range n).map Event.finalityFetch) ∨
    (∃ n, (relayFlow parseLog receipt finFetch proofFetch rootFetch fuel).2 =
      (List.range n).map Event.finalityFetch ++ Event.finalitySuccess ::
        (relayAfterFinality receipt proofFetch rootFetch fuel).2) := by
  simp only [relayFlow]
  split
  · exact Or.inl rfl
  · split
    · exact Or.inr (Or.inl ⟨_, rfl⟩)
    · exact Or.inr (Or.inr ⟨_, rfl⟩)

/-- Sample L2-to-L1 log entry for concrete flow evaluations. -/
def sampleEntry : L2ToL1LogEntry := ⟨"0xsender", "0xdata"⟩

/-- Sample mined receipt for concrete flow evaluations (raw logs are `Unit`). -/
def sampleReceipt : Receipt Unit := ⟨"0xhash", 1, 0, some [()], some [sampleEntry]⟩

/-- Sample `getLogProof` result for concrete flow evaluations. -/
def sampleProofData : LogProofData := ⟨7, 0, "0xr1", []⟩

/-- Sample interop bundle for concrete flow evaluations. -/
def sampleBundle : Bundle := ⟨1, 1, 2, 3, [], ⟨[], []⟩⟩

/-- Sample parse function that recognises every raw log as the
`InteropBundleSent` emission. -/
def sampleParse : Unit → Option ParsedLog :=
  fun _ => some ⟨"InteropBundleSent", sampleBundle⟩

/-- C6: in every execution of the relay flow, any `getLogProof` query in the
interaction trace is strictly preceded by the successful completion of the
finality wait for the same transaction; in particular no proof fetch happens
when the finality wait times out (the trace then contains no
`finalitySuccess`, so no `proofFetch` can occur). -/
theorem C6_finality_completes_before_proof_fetch {Log : Type}
    (parseLog : Log → Option ParsedLog) (receipt : Receipt Log)
    (finFetch : Nat → Option Nat) (proofFetch : Nat → Option LogProofData)
    (rootFetch : Nat → Option String) (fuel i : Nat) (h : String) (ix : Nat)
    (hi : ((relayFlow parseLog receipt finFetch proofFetch rootFetch fuel).2)[i]? =
      some (Event.proofFetch h ix)) :
    ∃ j, j < i ∧
      ((relayFlow parseLog receipt finFetch proofFetch rootFetch fuel).2)[j]? =
        some Event.finalitySuccess := by
  rcases relayFlow_trace_cases parseLog receipt finFetch proofFetch rootFetch fuel with
    hT | ⟨n, hT⟩ | ⟨n, hT⟩
  · rw [hT] at hi
    simp at hi
  · rw [hT] at hi
    have hmem := List.getElem?_mem hi
    rcases List.mem_map.mp hmem with ⟨k, _, hk⟩
    cases hk
  · rw [hT] at hi ⊢
    by_cases hlt : i < ((List.range n).map Event.finalityFetch).length
    · rw [List.getElem?_append_left hlt] at hi
      have hmem := List.getElem?_mem hi
      rcases List.mem_map.mp hmem with ⟨k, _, hk⟩
      cases hk
    · push_neg at hlt
      have hne : i ≠ ((List.range n).map Event.finalityFetch).length := by
        intro heq
        rw [heq, List.getElem?_append_right (le_refl _)] at hi
        simp at hi
      refine ⟨((List.range n).map Event.finalityFetch).length, by omega, ?_⟩
      rw [List.getElem?_append_right (le_refl _)]
      simp

theorem C6_witness :
    ∃ j, j < 2 ∧
      ((relayFlow sampleParse sampleReceipt (fun _ => some 1)
        (fun _ => some sampleProofData) (fun _ => some "0xr1") 1).2)[j]? =
        some Event.finalitySuccess :=
  C6_finality_completes_before_proof_fetch sampleParse sampleReceipt (fun _ => some 1)
    (fun _ => some sampleProofData) (fun _ => some "0xr1") 1 2 "0xhash" 0 (by decide)

/-- C10: every `getLogProof` query the relay flow issues — both inside the
existence-polling loop and the final proof retrieval — passes the transaction
hash of the send receipt and the constant log index `0`; no other log index is
ever queried for a proof. -/
theorem C10_proof_queries_use_index_zero {Log : Type}
    (parseLog : Log → Option ParsedLog) (receipt : Receipt Log)
    (finFetch : Nat → Option Nat) (proofFetch : Nat → Option LogProofData)
    (rootFetch : Nat → Option String) (fuel i : Nat) (h : String) (ix : Nat)
    (hi : ((relayFlow parseLog receipt finFetch proofFetch rootFetch fuel).2)[i]? =
      some (Event.proofFetch h ix)) :
    h = receipt.hash ∧ ix = 0 := by
  have hmem := List.getElem?_mem hi
  rcases relayFlow_trace_cases parseLog receipt finFetch proofFetch rootFetch fuel with
    hT | ⟨n, hT⟩ | ⟨n, hT⟩ <;> rw [hT] at hmem
  · simp at hmem
  · rcases List.mem_map.mp hmem with ⟨k, _, hk⟩
    cases hk
  · rcases List.mem_append.mp hmem with hA | hB
    · rcases List.mem_map.mp hA with ⟨k, _, hk⟩
      cases hk
    · rcases List.mem_cons.mp hB with heq | htail
      · cases heq
      · rcases relayAfterFinality_events receipt proofFetch rootFetch fuel _ htail with
          he | ⟨k, he⟩ | he
        · injection he with h1 h2
          exact ⟨h1, h2⟩
        · cases he
        · cases he

theorem C10_witness : "0xhash" = sampleReceipt.hash ∧ (0 : Nat) = 0 :=
  C10_proof_queries_use_index_zero sampleParse sampleReceipt (fun _ => some 1)
    (fun _ => some sampleProofData) (fun _ => some "0xr1") 1 2 "0xhash" 0 (by decide)

/-- C7: the Idle-to-Sent transition is gated on the emission event: the
`bundleEvent` extraction yields `none` exactly when no receipt log parses as
an `InteropBundleSent` event; in that case the relay flow terminates
immediately with the missing-event error having performed no chain
interaction (no retry), and when the event is found the flow never reports
the missing-event error. -/
theorem C7_missing_event_is_fatal {Log : Type} (parseLog : Log → Option ParsedLog)
    (receipt : Receipt Log) (finFetch : Nat → Option Nat)
    (proofFetch : Nat → Option LogProofData) (rootFetch : Nat → Option String)
    (fuel : Nat) :
    (bundleEvent parseLog (receipt.logs.getD []) = none ↔
      ∀ lg ∈ receipt.logs.getD [], ∀ p, parseLog lg = some p →
        p.name ≠ "InteropBundleSent") ∧
    (bundleEvent parseLog (receipt.logs.getD []) = none →
      relayFlow parseLog receipt finFetch proofFetch rootFetch fuel =
        (.missingEvent, [])) ∧
    (bundleEvent parseLog (receipt.logs.getD []) ≠ none →
      (relayFlow parseLog receipt finFetch proofFetch rootFetch fuel).1 ≠
        .missingEvent) := by
  refine ⟨?_, ?_, ?_⟩
  · constructor
    · intro hnone lg hlg p hp hname
      have hmem : some p ∈ (receipt.logs.getD []).map parseLog := by
        rw [← hp]
        exact List.mem_map_of_mem parseLog hlg
      unfold bundleEvent at hnone
      rcases Option.join_eq_none.mp hnone with hfind | hfind
      · have := List.find?_eq_none.mp hfind (some p) hmem
        simp [hname] at this
      · have := List.find?_some hfind
        simp at this
    · intro hall
      unfold bundleEvent
      have hfind : ((receipt.logs.getD []).map parseLog).find?
          (fun parsed => parsed.elim false fun p => p.name == "InteropBundleSent") =
          none := by
        rw [List.find?_eq_none]
        intro x hx
        rcases List.mem_map.mp hx with ⟨lg, hlg, hxe⟩
        cases x with
        | none => simp
        | some p =>
          have := hall lg hlg p hxe
          simp [this]
      rw [hfind]
      rfl
  · intro hnone
    simp only [relayFlow]
    rw [hnone]
  · intro hsome
    rcases Option.ne_none_iff_exists'.mp hsome with ⟨ev, hev⟩
    simp only [relayFlow]
    rw [hev]
    dsimp only
    split
    · simp
    · exact relayAfterFinality_ne_missingEvent receipt proofFetch rootFetch fuel

theorem C7_witness :
    relayFlow (fun (_ : Unit) => none) sampleReceipt (fun _ => some 1)
      (fun _ => some sampleProofData) (fun _ => some "0xr1") 1 =
      (.missingEvent, []) :=
  (C7_missing_event_is_fatal (fun (_ : Unit) => none) sampleReceipt (fun _ => some 1)
    (fun _ => some sampleProofData) (fun _ => some "0xr1") 1).2.1 (by decide)

/-- C8: the outbound-log selection takes the receipt's L2-to-L1 entry at the
index reported by the proof; when no entry exists at that index it falls back
to the entry at index 0; and it yields nothing (so the flow fails fatally)
exactly when the entry at index 0 is also absent. -/
theorem C8_log_selection_falls_back_to_zero (entries : Option (List L2ToL1LogEntry))
    (logIndex : Nat) :
    (∀ e, entries.bind (fun ls => ls[logIndex]?) = some e →
      l2ToL1Log entries logIndex = some e) ∧
    (entries.bind (fun ls => ls[logIndex]?) = none →
      l2ToL1Log entries logIndex = entries.bind fun ls => ls[0]?) ∧
    (l2ToL1Log entries logIndex = none ↔
      entries.bind (fun ls => ls[logIndex]?) = none ∧
      entries.bind (fun ls => ls[0]?) = none) := by
  unfold l2ToL1Log
  rcases hidx : entries.bind (fun ls => ls[logIndex]?) with _ | e <;>
    simp [Option.orElse]

theorem C8_witness :
    l2ToL1Log (some [sampleEntry]) 5 = (some [sampleEntry]).bind fun ls => ls[0]? :=
  (C8_log_selection_falls_back_to_zero (some [sampleEntry]) 5).2.1 (by decide)

/-! ## The bundle codec (claim C4)

The script builds `bundleBytes` with the external ABI coder:
`ethers.AbiCoder.defaultAbiCoder().encode([bundleType], [interopBundle])`
(`src/scripts/interop-test.ts:178`), over the tuple schema declared at lines
174-177. The decode direction is performed by the ABI library when parsing
the emission event, not by repository code, so the codec is modelled from the
spec (§4.5): deterministic, canonical head/tail ABI encoding of the fixed
versioned tuple schema, with a strict canonical decoder that rejects unknown
version tags and every non-canonical byte layout. Bytes are `Nat`s below 256;
words are 32-byte big-endian naturals.
-/

/-- Big-endian bytes of `n` in exactly `w` bytes (most significant first). -/
def natToBytesBE : Nat → Nat → List Nat
  | 0, _ => []
  | w + 1, n => natToBytesBE w (n / 256) ++ [n % 256]

/-- The natural denoted by a big-endian byte list. -/
def beToNat : List Nat → Nat
  | [] => 0
  | b :: bs => b * 256 ^ bs.length + beToNat bs

/-- One 32-byte ABI word. -/
def wordOf (n : Nat) : List Nat := natToBytesBE 32 n

theorem length_natToBytesBE : ∀ w n, (natToBytesBE w n).length = w := by
  intro w
  induction w with
  | zero => intro n; rfl
  | succ w ih => intro n; simp [natToBytesBE, ih]

theorem natToBytesBE_lt : ∀ w n, ∀ b ∈ natToBytesBE w n, b < 256 := by
  intro w
  induction w with
  | zero => intro n b hb; simp [natToBytesBE] at hb
  | succ w ih =>
    intro n b hb
    simp only [natToBytesBE] at hb
    rcases List.mem_append.mp hb with h | h
    · exact ih _ b h
    · simp at h
      omega

theorem beToNat_append_singleton :
    ∀ (l : List Nat) (b : Nat), beToNat (l ++ [b]) = 256 * beToNat l + b := by
  intro l
  induction l with
  | nil => intro b; simp [beToNat]
  | cons a t ih =>
    intro b
    show beToNat (a :: (t ++ [b])) = 256 * beToNat (a :: t) + b
    have hl : (t ++ [b]).length = t.length + 1 := by simp
    simp only [beToNat, ih, hl, pow_succ]
    ring

theorem beToNat_natToBytesBE : ∀ w n, n < 256 ^ w → beToNat (natToBytesBE w n) = n := by
  intro w
  induction w with
  | zero => intro n hn; interval_cases n; rfl
  | succ w ih =>
    intro n hn
    simp only [natToBytesBE]
    rw [beToNat_append_singleton, ih (n / 256) (by
      have : 256 ^ (w + 1) = 256 ^ w * 256 := pow_succ 256 w
      omega)]
    omega

theorem beToNat_lt : ∀ (bs : List Nat), (∀ b ∈ bs, b < 256) → beToNat bs < 256 ^ bs.length := by
  intro bs
  induction bs with
  | nil => intro _; simp [beToNat]
  | cons a t ih =>
    intro h
    have ha : a < 256 := h a (by simp)
    have ht := ih fun b hb => h b (by simp [hb])
    simp only [beToNat, List.length_cons]
    calc a * 256 ^ t.length + beToNat t < a * 256 ^ t.length + 256 ^ t.length := by omega
      _ = (a + 1) * 256 ^ t.length := by ring
      _ ≤ 256 * 256 ^ t.length := by
          have : a + 1 ≤ 256 := by omega
          exact Nat.mul_le_mul_right _ this
      _ = 256 ^ (t.length + 1) := by rw [pow_succ]; ring

theorem natToBytesBE_beToNat :
    ∀ w (bs : List Nat), bs.length = w → (∀ b ∈ bs, b < 256) →
      natToBytesBE w (beToNat bs) = bs := by
  intro w
  induction w with
  | zero =>
    intro bs h _
    rw [List.length_eq_zero.mp h]
    rfl
  | succ w ih =>
    intro bs hlen hall
    obtain ⟨l, b, rfl⟩ : ∃ l b, bs = l ++ [b] := by
      rcases List.eq_nil_or_concat bs with h | ⟨l, b, h⟩
      · rw [h] at hlen; simp at hlen
      · exact ⟨l, b, by simpa [List.concat_eq_append] using h⟩
    have hlenl : l.length = w := by
      have := hlen
      simp at this
      omega
    have hb : b < 256 := hall b (by simp)
    have halll : ∀ x ∈ l, x < 256 := fun x hx => hall x (by simp [hx])
    rw [beToNat_append_singleton]
    simp only [natToBytesBE]
    have hdiv : (256 * beToNat l + b) / 256 = beToNat l := by omega
    have hmod : (256 * beToNat l + b) % 256 = b := by omega
    rw [hdiv, hmod, ih l hlenl halll]

theorem length_wordOf (n : Nat) : (wordOf n).length = 32 := length_natToBytesBE 32 n

/-- Take exactly `n` elements, returning them and the remainder. -/
def takeN {α : Type} : Nat → List α → Option (List α × List α)
  | 0, xs => some ([], xs)
  | _ + 1, [] => none
  | n + 1, x :: xs => (takeN n xs).map fun p => (x :: p.1, p.2)

theorem takeN_append {α : Type} :
    ∀ (l rest : List α), takeN l.length (l ++ rest) = some (l, rest) := by
  intro l
  induction l with
  | nil => intro rest; rfl
  | cons a t ih => intro rest; simp [takeN, ih rest]

theorem takeN_some {α : Type} :
    ∀ (n : Nat) (input a r : List α), takeN n input = some (a, r) →
      input = a ++ r ∧ a.length = n := by
  intro n
  induction n with
  | zero =>
    intro input a r h
    simp [takeN] at h
    rcases h with ⟨h1, h2⟩
    simp [← h1, ← h2]
  | succ n ih =>
    intro input a r h
    cases input with
    | nil => simp [takeN] at h
    | cons x xs =>
      cases htn : takeN n xs with
      | none => simp [takeN, htn] at h
      | some p =>
        obtain ⟨a1, r1⟩ := p
        simp only [takeN, htn, Option.map_some', Option.some.injEq, Prod.mk.injEq] at h
        rcases h with ⟨ha, hr⟩
        rcases ih xs a1 r1 htn with ⟨h1, h2⟩
        subst ha
        subst hr
        constructor
        · simp [h1]
        · simp [h2]

/-- Read one 32-byte word; rejects non-byte values. -/
def readWord (input : List Nat) : Option (Nat × List Nat) :=
  match takeN 32 input with
  | none => none
  | some (ws, rest) => if ∀ b ∈ ws, b < 256 then some (beToNat ws, rest) else none

theorem pow256_32 : 256 ^ 32 = 2 ^ 256 := by norm_num

theorem readWord_encode (n : Nat) (rest : List Nat) (hn : n < 2 ^ 256) :
    readWord (wordOf n ++ rest) = some (n, rest) := by
  unfold readWord wordOf
  have ht : takeN 32 (natToBytesBE 32 n ++ rest) = some (natToBytesBE 32 n, rest) := by
    have := takeN_append (natToBytesBE 32 n) rest
    rwa [length_natToBytesBE] at this
  rw [ht]
  dsimp only
  rw [if_pos (natToBytesBE_lt 32 n)]
  rw [beToNat_natToBytesBE 32 n (by rw [pow256_32]; exact hn)]

theorem readWord_some (input : List Nat) (n : Nat) (rest : List Nat)
    (h : readWord input = some (n, rest)) :
    input = wordOf n ++ rest ∧ n < 2 ^ 256 := by
  unfold readWord at h
  cases ht : takeN 32 input with
  | none => rw [ht] at h; simp at h
  | some p =>
    obtain ⟨ws, r⟩ := p
    rw [ht] at h
    dsimp only at h
    by_cases hall : ∀ b ∈ ws, b < 256
    · rw [if_pos hall] at h
      simp only [Option.some.injEq, Prod.mk.injEq] at h
      rcases h with ⟨hn, hr⟩
      rcases takeN_some 32 input ws r ht with ⟨hin, hlen⟩
      subst hn
      subst hr
      constructor
      · rw [hin, wordOf, natToBytesBE_beToNat 32 ws hlen hall]
      · rw [← pow256_32, ← hlen]
        exact beToNat_lt ws hall
    · rw [if_neg hall] at h
      simp at h

/-- Left-aligned `bytes1` encoding: the byte then 31 zero bytes. -/
def bytes1Enc (v : Nat) : List Nat := v :: List.replicate 31 0

/-- Read a `bytes1` component; rejects non-canonical padding. -/
def readB1 (input : List Nat) : Option (Nat × List Nat) :=
  match takeN 32 input with
  | none => none
  | some ([], _) => none
  | some (v :: zs, rest) =>
    if v < 256 ∧ zs = List.replicate 31 0 then some (v, rest) else none

theorem readB1_encode (v : Nat) (rest : List Nat) (hv : v < 256) :
    readB1 (bytes1Enc v ++ rest) = some (v, rest) := by
  unfold readB1 bytes1Enc
  have ht : takeN 32 ((v :: List.replicate 31 0) ++ rest) =
      some (v :: List.replicate 31 0, rest) := by
    have := takeN_append (v :: List.replicate 31 0) rest
    simpa using this
  rw [ht]
  simp [hv]

theorem readB1_some (input : List Nat) (v : Nat) (rest : List Nat)
    (h : readB1 input = some (v, rest)) :
    input = bytes1Enc v ++ rest ∧ v < 256 := by
  unfold readB1 at h
  cases ht : takeN 32 input with
  | none => rw [ht] at h; simp at h
  | some p =>
    obtain ⟨ws, r⟩ := p
    rw [ht] at h
    cases ws with
    | nil => simp at h
    | cons v0 zs =>
      dsimp only at h
      by_cases hc : v0 < 256 ∧ zs = List.replicate 31 0
      · rw [if_pos hc] at h
        simp only [Option.some.injEq, Prod.mk.injEq] at h
        rcases h with ⟨hv, hr⟩
        rcases takeN_some 32 input (v0 :: zs) r ht with ⟨hin, _⟩
        subst hv
        subst hr
        exact ⟨by rw [hin, bytes1Enc, hc.2], hc.1⟩
      · rw [if_neg hc] at h
        simp at h

/-- ABI `bool` encoding. -/
def boolEnc (b : Bool) : List Nat := wordOf (if b then 1 else 0)

/-- Read an ABI `bool`; rejects any word other than 0 or 1. -/
def readBool (input : List Nat) : Option (Bool × List Nat) :=
  match readWord input with
  | some (0, rest) => some (false, rest)
  | some (1, rest) => some (true, rest)
  | _ => none

theorem readBool_encode (b : Bool) (rest : List Nat) :
    readBool (boolEnc b ++ rest) = some (b, rest) := by
  unfold readBool boolEnc
  cases b
  · rw [show (if (false = true) then 1 else 0) = 0 from rfl,
      readWord_encode 0 rest (by norm_num)]
  · rw [show (if (true = true) then 1 else 0) = 1 from rfl,
      readWord_encode 1 rest (by norm_num)]

theorem readBool_some (input : List Nat) (b : Bool) (rest : List Nat)
    (h : readBool input = some (b, rest)) : input = boolEnc b ++ rest := by
  unfold readBool at h
  cases hw : readWord input with
  | none => rw [hw] at h; simp at h
  | some p =>
    obtain ⟨n, r⟩ := p
    rw [hw] at h
    rcases readWord_some input n r hw with ⟨hin, _⟩
    match n, h with
    | 0, h =>
      simp only [Option.some.injEq, Prod.mk.injEq] at h
      rcases h with ⟨hb, hr⟩
      subst hb
      subst hr
      simpa [boolEnc] using hin
    | 1, h =>
      simp only [Option.some.injEq, Prod.mk.injEq] at h
      rcases h with ⟨hb, hr⟩
      subst hb
      subst hr
      simpa [boolEnc] using hin
    | n + 2, h => simp at h

/-- ABI `address` encoding: a `uint160` padded to one word. -/
def addrEnc (a : Nat) : List Nat := wordOf a

/-- Read an ABI `address`; rejects words with nonzero upper 12 bytes. -/
def readAddr (input : List Nat) : Option (Nat × List Nat) :=
  match readWord input with
  | none => none
  | some (n, rest) => if n < 2 ^ 160 then some (n, rest) else none

theorem readAddr_encode (a : Nat) (rest : List Nat) (ha : a < 2 ^ 160) :
    readAddr (addrEnc a ++ rest) = some (a, rest) := by
  unfold readAddr addrEnc
  rw [readWord_encode a rest (lt_trans ha (by norm_num))]
  dsimp only
  rw [if_pos ha]

theorem readAddr_some (input : List Nat) (a : Nat) (rest : List Nat)
    (h : readAddr input = some (a, rest)) :
    input = addrEnc a ++ rest ∧ a < 2 ^ 160 := by
  unfold readAddr at h
  cases hw : readWord input with
  | none => rw [hw] at h; simp at h
  | some p =>
    obtain ⟨n, r⟩ := p
    rw [hw] at h
    dsimp only at h
    by_cases hn : n < 2 ^ 160
    · rw [if_pos hn] at h
      simp only [Option.some.injEq, Prod.mk.injEq] at h
      rcases h with ⟨ha, hr⟩
      subst ha
      subst hr
      exact ⟨(readWord_some input n r hw).1, hn⟩
    · rw [if_neg hn] at h
      simp at h

/-- Zero-padding length bringing `n` bytes to a multiple of 32. -/
def pad32Len (n : Nat) : Nat := (32 - n % 32) % 32

/-- ABI dynamic `bytes` encoding: length word, data, zero padding. -/
def bytesEnc (data : List Nat) : List Nat :=
  wordOf data.length ++ data ++ List.replicate (pad32Len data.length) 0

/-- Read an ABI dynamic `bytes` component; rejects non-byte data and
non-canonical (nonzero) padding. -/
def readBytes (input : List Nat) : Option (List Nat × List Nat) :=
  match readWord input with
  | none => none
  | some (len, r1) =>
    match takeN len r1 with
    | none => none
    | some (data, r2) =>
      if ∀ b ∈ data, b < 256 then
        match takeN (pad32Len len) r2 with
        | none => none
        | some (pad, r3) =>
          if pad = List.replicate (pad32Len len) 0 then some (data, r3) else none
      else none

theorem readBytes_encode (data : List Nat) (rest : List Nat)
    (hall : ∀ b ∈ data, b < 256) (hlen : data.length < 2 ^ 256) :
    readBytes (bytesEnc data ++ rest) = some (data, rest) := by
  unfold readBytes bytesEnc
  rw [List.append_assoc, List.append_assoc]
  rw [readWord_encode data.length _ hlen]
  dsimp only
  rw [← List.append_assoc]
  have h1 : takeN data.length ((data ++ List.replicate (pad32Len data.length) 0) ++ rest) =
      some (data, List.replicate (pad32Len data.length) 0 ++ rest) := by
    rw [List.append_assoc]
    exact takeN_append data _
  rw [h1]
  dsimp only
  rw [if_pos hall]
  have h2 : takeN (pad32Len data.length)
      (List.replicate (pad32Len data.length) 0 ++ rest) =
      some (List.replicate (pad32Len data.length) 0, rest) := by
    have := takeN_append (List.replicate (pad32Len data.length) 0) rest
    rwa [List.length_replicate] at this
  rw [h2]
  dsimp only
  rw [if_pos rfl]

theorem readBytes_some (input : List Nat) (data rest : List Nat)
    (h : readBytes input = some (data, rest)) :
    input = bytesEnc data ++ rest ∧ (∀ b ∈ data, b < 256) ∧ data.length < 2 ^ 256 := by
  unfold readBytes at h
  cases hw : readWord input with
  | none => rw [hw] at h; simp at h
  | some p =>
    obtain ⟨len, r1⟩ := p
    rw [hw] at h
    dsimp only at h
    cases ht1 : takeN len r1 with
    | none => rw [ht1] at h; simp at h
    | some q =>
      obtain ⟨d, r2⟩ := q
      rw [ht1] at h
      dsimp only at h
      by_cases hall : ∀ b ∈ d, b < 256
      · rw [if_pos hall] at h
        cases ht2 : takeN (pad32Len len) r2 with
        | none => rw [ht2] at h; simp at h
        | some w =>
          obtain ⟨pad, r3⟩ := w
          rw [ht2] at h
          dsimp only at h
          by_cases hpad : pad = List.replicate (pad32Len len) 0
          · rw [if_pos hpad] at h
            simp only [Option.some.injEq, Prod.mk.injEq] at h
            rcases h with ⟨hd, hr⟩
            subst hd
            subst hr
            rcases readWord_some input len r1 hw with ⟨hin, hlt⟩
            rcases takeN_some len r1 d r2 ht1 with ⟨hr1, hdlen⟩
            rcases takeN_some (pad32Len len) r2 pad r3 ht2 with ⟨hr2, _⟩
            subst hdlen
            refine ⟨?_, hall, hlt⟩
            rw [hin, hr1, hr2, hpad, bytesEnc]
            simp [List.append_assoc]
          · rw [if_neg hpad] at h
            simp at h
      · rw [if_neg hall] at h
        simp at h

/-- Concatenated ABI words. -/
def wordsEnc : List Nat → List Nat
  | [] => []
  | v :: vs => wordOf v ++ wordsEnc vs

/-- Read `n` consecutive ABI words. -/
def readWords : Nat → List Nat → Option (List Nat × List Nat)
  | 0, input => some ([], input)
  | n + 1, input =>
    match readWord input with
    | none => none
    | some (v, r) => (readWords n r).map fun p => (v :: p.1, p.2)

theorem readWords_encode : ∀ (vals rest : List Nat), (∀ v ∈ vals, v < 2 ^ 256) →
    readWords vals.length (wordsEnc vals ++ rest) = some (vals, rest) := by
  intro vals
  induction vals with
  | nil => intro rest _; rfl
  | cons v vs ih =>
    intro rest hall
    simp only [wordsEnc, List.length_cons, readWords, List.append_assoc]
    rw [readWord_encode v _ (hall v (by simp))]
    dsimp only
    rw [ih rest fun x hx => hall x (by simp [hx])]
    rfl

theorem readWords_some : ∀ (n : Nat) (input vals rest : List Nat),
    readWords n input = some (vals, rest) →
    input = wordsEnc vals ++ rest ∧ vals.length = n ∧ ∀ v ∈ vals, v < 2 ^ 256 := by
  intro n
  induction n with
  | zero =>
    intro input vals rest h
    simp only [readWords, Option.some.injEq, Prod.mk.injEq] at h
    rcases h with ⟨hv, hr⟩
    subst hv
    subst hr
    simp [wordsEnc]
  | succ n ih =>
    intro input vals rest h
    simp only [readWords] at h
    cases hw : readWord input with
    | none => rw [hw] at h; simp at h
    | some p =>
      obtain ⟨v, r⟩ := p
      rw [hw] at h
      dsimp only at h
      cases hrw : readWords n r with
      | none => rw [hrw] at h; simp at h
      | some q =>
        obtain ⟨vs, r2⟩ := q
        rw [hrw] at h
        simp only [Option.map_some', Option.some.injEq, Prod.mk.injEq] at h
        rcases h with ⟨hv, hr⟩
        subst hv
        subst hr
        rcases readWord_some input v r hw with ⟨hin, hvlt⟩
        rcases ih r vs r2 hrw with ⟨hr2, hlen, hall⟩
        refine ⟨?_, by simp [hlen], ?_⟩
        · rw [hin, hr2, wordsEnc]
          simp [List.append_assoc]
        · intro x hx
          rcases List.mem_cons.mp hx with hx0 | hx1
          · rw [hx0]; exact hvlt
          · exact hall x hx1

/-- Canonical ABI encoding of one call tuple
`(bytes1, bool, address, address, uint256, bytes)`: five static head words,
the offset word 192 of the single dynamic `bytes` field, then its tail. -/
def callEnc (c : Call) : List Nat :=
  bytes1Enc c.version ++ boolEnc c.shadowAccount ++ addrEnc c.toAddr ++
    addrEnc c.fromAddr ++ wordOf c.value ++ wordOf 192 ++ bytesEnc c.data

/-- Canonical decoder for one call tuple. -/
def readCall (input : List Nat) : Option (Call × List Nat) :=
  match readB1 input with
  | none => none
  | some (ver, r1) =>
  match readBool r1 with
  | none => none
  | some (sh, r2) =>
  match readAddr r2 with
  | none => none
  | some (toA, r3) =>
  match readAddr r3 with
  | none => none
  | some (frA, r4) =>
  match readWord r4 with
  | none => none
  | some (value, r5) =>
  match readWord r5 with
  | none => none
  | some (off, r6) =>
    if off = 192 then
      match readBytes r6 with
      | none => none
      | some (data, r7) => some (⟨ver, sh, toA, frA, value, data⟩, r7)
    else none

/-- Range constraints making a call representable in the ABI schema. -/
def ValidCall (c : Call) : Prop :=
  c.version < 256 ∧ c.toAddr < 2 ^ 160 ∧ c.fromAddr < 2 ^ 160 ∧ c.value < 2 ^ 256 ∧
    (∀ b ∈ c.data, b < 256) ∧ c.data.length ≤ 2 ^ 32

instance (c : Call) : Decidable (ValidCall c) := by
  unfold ValidCall
  infer_instance

theorem readCall_encode (c : Call) (rest : List Nat) (hc : ValidCall c) :
    readCall (callEnc c ++ rest) = some (c, rest) := by
  obtain ⟨h1, h2, h3, h4, h5, h6⟩ := hc
  unfold readCall callEnc
  simp only [List.append_assoc]
  rw [readB1_encode c.version _ h1]
  dsimp only
  rw [readBool_encode c.shadowAccount _]
  dsimp only
  rw [readAddr_encode c.toAddr _ h2]
  dsimp only
  rw [readAddr_encode c.fromAddr _ h3]
  dsimp only
  rw [readWord_encode c.value _ h4]
  dsimp only
  rw [readWord_encode 192 _ (by norm_num)]
  dsimp only
  rw [if_pos rfl]
  rw [readBytes_encode c.data rest h5 (lt_of_le_of_lt h6 (by norm_num))]

theorem readCall_some (input : List Nat) (c : Call) (rest : List Nat)
    (h : readCall input = some (c, rest)) : input = callEnc c ++ rest := by
  unfold readCall at h
  cases hB1 : readB1 input with
  | none => rw [hB1] at h; simp at h
  | some p1 =>
  obtain ⟨ver, r1⟩ := p1
  rw [hB1] at h
  dsimp only at h
  cases hBo : readBool r1 with
  | none => rw [hBo] at h; simp at h
  | some p2 =>
  obtain ⟨sh, r2⟩ := p2
  rw [hBo] at h
  dsimp only at h
  cases hA1 : readAddr r2 with
  | none => rw [hA1] at h; simp at h
  | some p3 =>
  obtain ⟨toA, r3⟩ := p3
  rw [hA1] at h
  dsimp only at h
  cases hA2 : readAddr r3 with
  | none => rw [hA2] at h; simp at h
  | some p4 =>
  obtain ⟨frA, r4⟩ := p4
  rw [hA2] at h
  dsimp only at h
  cases hV : readWord r4 with
  | none => rw [hV] at h; simp at h
  | some p5 =>
  obtain ⟨value, r5⟩ := p5
  rw [hV] at h
  dsimp only at h
  cases hO : readWord r5 with
  | none => rw [hO] at h; simp at h
  | some p6 =>
  obtain ⟨off, r6⟩ := p6
  rw [hO] at h
  dsimp only at h
  by_cases hoff : off = 192
  · rw [if_pos hoff] at h
    subst hoff
    cases hD : readBytes r6 with
    | none => rw [hD] at h; simp at h
    | some p7 =>
      obtain ⟨data, r7⟩ := p7
      rw [hD] at h
      simp only [Option.some.injEq, Prod.mk.injEq] at h
      rcases h with ⟨hcq, hr⟩
      subst hr
      rcases readB1_some input ver r1 hB1 with ⟨e1, _⟩
      have e2 := readBool_some r1 sh r2 hBo
      rcases readAddr_some r2 toA r3 hA1 with ⟨e3, _⟩
      rcases readAddr_some r3 frA r4 hA2 with ⟨e4, _⟩
      rcases readWord_some r4 value r5 hV with ⟨e5, _⟩
      rcases readWord_some r5 192 r6 hO with ⟨e6, _⟩
      rcases readBytes_some r6 data r7 hD with ⟨e7, _, _⟩
      rw [← hcq, callEnc]
      rw [e1, e2, e3, e4, e5, e6, e7]
      simp [List.append_assoc]
  · rw [if_neg hoff] at h
    simp at h

/-- Concatenated encodings of the calls (the tail area of the array). -/
def callTails : List Call → List Nat
  | [] => []
  | c :: cs => callEnc c ++ callTails cs

/-- Canonical element offsets of the dynamic call array, relative to the
start of its element block: the first element sits right after the `n`
offset words, each further one after the previous element's encoding. -/
def callOffsets (base : Nat) : List Call → List Nat
  | [] => []
  | c :: cs => base :: callOffsets (base + (callEnc c).length) cs

/-- Canonical ABI encoding of `calls[]`: length word, offset words, tails. -/
def callsEnc (cs : List Call) : List Nat :=
  wordOf cs.length ++ wordsEnc (callOffsets (32 * cs.length) cs) ++ callTails cs

/-- Read `n` consecutive call tuples. -/
def readCalls1 : Nat → List Nat → Option (List Call × List Nat)
  | 0, input => some ([], input)
  | n + 1, input =>
    match readCall input with
    | none => none
    | some (c, r) => (readCalls1 n r).map fun p => (c :: p.1, p.2)

/-- Canonical decoder for `calls[]`; checks the offset words against the
canonical offsets of the decoded elements. -/
def readCalls (input : List Nat) : Option (List Call × List Nat) :=
  match readWord input with
  | none => none
  | some (n, r1) =>
  match readWords n r1 with
  | none => none
  | some (offs, r2) =>
  match readCalls1 n r2 with
  | none => none
  | some (cs, r3) =>
    if offs = callOffsets (32 * n) cs then some (cs, r3) else none

theorem callOffsets_length : ∀ (cs : List Call) (base : Nat),
    (callOffsets base cs).length = cs.length := by
  intro cs
  induction cs with
  | nil => intro base; rfl
  | cons c t ih => intro base; simp [callOffsets, ih]

theorem callEnc_length (c : Call) :
    (callEnc c).length = 224 + c.data.length + pad32Len c.data.length := by
  simp [callEnc, bytes1Enc, boolEnc, addrEnc, bytesEnc, length_wordOf]
  omega

theorem callEnc_length_le (c : Call) (hc : c.data.length ≤ 2 ^ 32) :
    (callEnc c).length ≤ 2 ^ 33 := by
  rw [callEnc_length]
  have : pad32Len c.data.length < 32 := by
    unfold pad32Len
    omega
  have h32 : (2 : Nat) ^ 32 = 4294967296 := by norm_num
  have h33 : (2 : Nat) ^ 33 = 8589934592 := by norm_num
  omega

theorem callTails_length_le : ∀ (cs : List Call) (K : Nat),
    (∀ c ∈ cs, (callEnc c).length ≤ K) →
    (callTails cs).length ≤ cs.length * K := by
  intro cs
  induction cs with
  | nil => intro K _; simp [callTails]
  | cons c t ih =>
    intro K h
    have hc := h c (by simp)
    have ht := ih K fun x hx => h x (by simp [hx])
    simp only [callTails, List.length_append, List.length_cons]
    calc (callEnc c).length + (callTails t).length ≤ K + t.length * K := by omega
      _ = (t.length + 1) * K := by ring

theorem callOffsets_le : ∀ (cs : List Call) (base : Nat),
    ∀ o ∈ callOffsets base cs, o ≤ base + (callTails cs).length := by
  intro cs
  induction cs with
  | nil => intro base o ho; simp [callOffsets] at ho
  | cons c t ih =>
    intro base o ho
    simp only [callOffsets, List.mem_cons] at ho
    rcases ho with ho | ho
    · rw [ho]; omega
    · have := ih (base + (callEnc c).length) o ho
      simp only [callTails, List.length_append]
      omega

theorem callOffsets_lt (cs : List Call) (hn : cs.length ≤ 2 ^ 32)
    (hval : ∀ c ∈ cs, ValidCall c) :
    ∀ o ∈ callOffsets (32 * cs.length) cs, o < 2 ^ 256 := by
  intro o ho
  have h1 := callOffsets_le cs (32 * cs.length) o ho
  have h2 : (callTails cs).length ≤ cs.length * 2 ^ 33 :=
    callTails_length_le cs (2 ^ 33) fun c hc =>
      callEnc_length_le c (hval c hc).2.2.2.2.2
  have h3 : cs.length * 2 ^ 33 ≤ 2 ^ 32 * 2 ^ 33 := Nat.mul_le_mul_right _ hn
  have h4 : (2 : Nat) ^ 32 * 2 ^ 33 < 2 ^ 256 := by norm_num
  have h5 : 32 * cs.length ≤ 32 * 2 ^ 32 := Nat.mul_le_mul_left _ hn
  have h6 : 32 * 2 ^ 32 + 2 ^ 32 * 2 ^ 33 < 2 ^ 256 := by norm_num
  omega

theorem readCalls1_encode : ∀ (cs : List Call) (rest : List Nat),
    (∀ c ∈ cs, ValidCall c) →
    readCalls1 cs.length (callTails cs ++ rest) = some (cs, rest) := by
  intro cs
  induction cs with
  | nil => intro rest _; rfl
  | cons c t ih =>
    intro rest hval
    simp only [callTails, List.length_cons, readCalls1, List.append_assoc]
    rw [readCall_encode c _ (hval c (by simp))]
    dsimp only
    rw [ih rest fun x hx => hval x (by simp [hx])]
    rfl

theorem readCalls1_some : ∀ (n : Nat) (input : List Nat) (cs : List Call)
    (rest : List Nat), readCalls1 n input = some (cs, rest) →
    input = callTails cs ++ rest ∧ cs.length = n := by
  intro n
  induction n with
  | zero =>
    intro input cs rest h
    simp only [readCalls1, Option.some.injEq, Prod.mk.injEq] at h
    rcases h with ⟨hv, hr⟩
    subst hv
    subst hr
    simp [callTails]
  | succ n ih =>
    intro input cs rest h
    simp only [readCalls1] at h
    cases hc : readCall input with
    | none => rw [hc] at h; simp at h
    | some p =>
      obtain ⟨c, r⟩ := p
      rw [hc] at h
      dsimp only at h
      cases hrc : readCalls1 n r with
      | none => rw [hrc] at h; simp at h
      | some q =>
        obtain ⟨cs1, r2⟩ := q
        rw [hrc] at h
        simp only [Option.map_some', Option.some.injEq, Prod.mk.injEq] at h
        rcases h with ⟨hv, hr⟩
        subst hv
        subst hr
        rcases ih r cs1 r2 hrc with ⟨hr2, hlen⟩
        refine ⟨?_, by simp [hlen]⟩
        rw [readCall_some input c r hc, hr2, callTails]
        simp [List.append_assoc]

theorem readCalls_encode (cs : List Call) (rest : List Nat)
    (hn : cs.length ≤ 2 ^ 32) (hval : ∀ c ∈ cs, ValidCall c) :
    readCalls (callsEnc cs ++ rest) = some (cs, rest) := by
  unfold readCalls callsEnc
  simp only [List.append_assoc]
  rw [readWord_encode cs.length _ (lt_of_le_of_lt hn (by norm_num))]
  dsimp only
  have hoffs := readWords_encode (callOffsets (32 * cs.length) cs)
    (callTails cs ++ rest) (callOffsets_lt cs hn hval)
  rw [callOffsets_length] at hoffs
  rw [hoffs]
  dsimp only
  rw [readCalls1_encode cs rest hval]
  dsimp only
  rw [if_pos rfl]

theorem readCalls_some (input : List Nat) (cs : List Call) (rest : List Nat)
    (h : readCalls input = some (cs, rest)) : input = callsEnc cs ++ rest := by
  unfold readCalls at h
  cases hw : readWord input with
  | none => rw [hw] at h; simp at h
  | some p =>
  obtain ⟨n, r1⟩ := p
  rw [hw] at h
  dsimp only at h
  cases hws : readWords n r1 with
  | none => rw [hws] at h; simp at h
  | some q =>
  obtain ⟨offs, r2⟩ := q
  rw [hws] at h
  dsimp only at h
  cases hcs : readCalls1 n r2 with
  | none => rw [hcs] at h; simp at h
  | some w =>
  obtain ⟨cs1, r3⟩ := w
  rw [hcs] at h
  dsimp only at h
  by_cases hok : offs = callOffsets (32 * n) cs1
  · rw [if_pos hok] at h
    simp only [Option.some.injEq, Prod.mk.injEq] at h
    rcases h with ⟨hv, hr⟩
    subst hv
    subst hr
    rcases readWord_some input n r1 hw with ⟨e1, _⟩
    rcases readWords_some n r1 offs r2 hws with ⟨e2, _, _⟩
    rcases readCalls1_some n r2 cs1 r3 hcs with ⟨e3, hlen⟩
    subst hlen
    rw [e1, e2, e3, hok, callsEnc]
    simp [List.append_assoc]
  · rw [if_neg hok] at h
    simp at h

theorem bytesEnc_length (d : List Nat) :
    (bytesEnc d).length = 32 + d.length + pad32Len d.length := by
  simp [bytesEnc, length_wordOf]
  omega

theorem wordsEnc_length : ∀ vs : List Nat, (wordsEnc vs).length = 32 * vs.length := by
  intro vs
  induction vs with
  | nil => rfl
  | cons v t ih => simp [wordsEnc, length_wordOf, ih]; ring

/-- Canonical ABI encoding of the `(bytes, bytes)` attributes tuple: two
offset words then the two `bytes` tails. -/
def attrsEnc (a : BundleAttributes) : List Nat :=
  wordOf 64 ++ wordOf (64 + (bytesEnc a.executionAddress).length) ++
    bytesEnc a.executionAddress ++ bytesEnc a.unbundlerAddress

/-- Canonical decoder for the attributes tuple. -/
def readAttrs (input : List Nat) : Option (BundleAttributes × List Nat) :=
  match readWord input with
  | none => none
  | some (off1, r1) =>
    if off1 = 64 then
      match readWord r1 with
      | none => none
      | some (off2, r2) =>
        match readBytes r2 with
        | none => none
        | some (ea, r3) =>
          if off2 = 64 + (bytesEnc ea).length then
            match readBytes r3 with
            | none => none
            | some (ua, r4) => some (⟨ea, ua⟩, r4)
          else none
    else none

theorem readAttrs_encode (a : BundleAttributes) (rest : List Nat)
    (h1 : ∀ x ∈ a.executionAddress, x < 256) (h2 : a.executionAddress.length ≤ 2 ^ 32)
    (h3 : ∀ x ∈ a.unbundlerAddress, x < 256) (h4 : a.unbundlerAddress.length ≤ 2 ^ 32) :
    readAttrs (attrsEnc a ++ rest) = some (a, rest) := by
  unfold readAttrs attrsEnc
  simp only [List.append_assoc]
  rw [readWord_encode 64 _ (by norm_num)]
  dsimp only
  rw [if_pos rfl]
  have hofflt : 64 + (bytesEnc a.executionAddress).length < 2 ^ 256 := by
    rw [bytesEnc_length]
    have : pad32Len a.executionAddress.length < 32 := by unfold pad32Len; omega
    have h32 : (2 : Nat) ^ 32 = 4294967296 := by norm_num
    have h256 : (2 : Nat) ^ 256 = 2 ^ 256 := rfl
    have hbig : (4294967296 : Nat) + 128 < 2 ^ 256 := by norm_num
    omega
  rw [readWord_encode _ _ hofflt]
  dsimp only
  rw [readBytes_encode a.executionAddress _ h1 (lt_of_le_of_lt h2 (by norm_num))]
  dsimp only
  rw [if_pos rfl]
  rw [readBytes_encode a.unbundlerAddress rest h3 (lt_of_le_of_lt h4 (by norm_num))]

theorem readAttrs_some (input : List Nat) (a : BundleAttributes) (rest : List Nat)
    (h : readAttrs input = some (a, rest)) : input = attrsEnc a ++ rest := by
  unfold readAttrs at h
  cases hw : readWord input with
  | none => rw [hw] at h; simp at h
  | some p =>
  obtain ⟨off1, r1⟩ := p
  rw [hw] at h
  dsimp only at h
  by_cases ho1 : off1 = 64
  · rw [if_pos ho1] at h
    subst ho1
    cases hw2 : readWord r1 with
    | none => rw [hw2] at h; simp at h
    | some q =>
    obtain ⟨off2, r2⟩ := q
    rw [hw2] at h
    dsimp only at h
    cases hbe : readBytes r2 with
    | none => rw [hbe] at h; simp at h
    | some w =>
    obtain ⟨ea, r3⟩ := w
    rw [hbe] at h
    dsimp only at h
    by_cases ho2 : off2 = 64 + (bytesEnc ea).length
    · rw [if_pos ho2] at h
      cases hbu : readBytes r3 with
      | none => rw [hbu] at h; simp at h
      | some u =>
        obtain ⟨ua, r4⟩ := u
        rw [hbu] at h
        simp only [Option.some.injEq, Prod.mk.injEq] at h
        rcases h with ⟨ha, hr⟩
        subst hr
        rcases readWord_some input 64 r1 hw with ⟨e1, _⟩
        rcases readWord_some r1 off2 r2 hw2 with ⟨e2, _⟩
        rcases readBytes_some r2 ea r3 hbe with ⟨e3, _, _⟩
        rcases readBytes_some r3 ua r4 hbu with ⟨e4, _, _⟩
        rw [← ha, attrsEnc]
        rw [e1, e2, ho2, e3, e4]
        simp [List.append_assoc]
    · rw [if_neg ho2] at h
      simp at h
  · rw [if_neg ho1] at h
    simp at h

/-- Canonical ABI encoding of the bundle tuple `(bytes1, uint256, uint256,
bytes32, calls[], bundleAttributes)`: four static head words, the two offset
words of the dynamic components, then their tails. -/
def bundleEnc (b : Bundle) : List Nat :=
  bytes1Enc b.version ++ wordOf b.sourceChainId ++ wordOf b.destinationChainId ++
    wordOf b.interopBundleSalt ++ wordOf 192 ++
    wordOf (192 + (callsEnc b.calls).length) ++
    callsEnc b.calls ++ attrsEnc b.bundleAttributes

/-- Modelled from the spec: the `bundleBytes` value of
`src/scripts/interop-test.ts:178` — `AbiCoder.encode([bundleType],
[interopBundle])` — is the canonical ABI encoding of a one-element tuple
whose single component is the dynamic bundle tuple: one offset word (32)
followed by the bundle tuple encoding. The coder itself lives in the external
ABI library, so this definition follows §4.5 of the spec over the schema
declared at `src/scripts/interop-test.ts:174-177`. -/
def bundleBytes (b : Bundle) : List Nat := wordOf 32 ++ bundleEnc b

/-- Canonical decoder for the bundle tuple; rejects unknown version tags
(the only known tag is `0x01`, per §4.5 and §8 of the spec). -/
def readBundle (input : List Nat) : Option (Bundle × List Nat) :=
  match readB1 input with
  | none => none
  | some (ver, r1) =>
  if ver = 1 then
    match readWord r1 with
    | none => none
    | some (src, r2) =>
    match readWord r2 with
    | none => none
    | some (dst, r3) =>
    match readWord r3 with
    | none => none
    | some (salt, r4) =>
    match readWord r4 with
    | none => none
    | some (offC, r5) =>
    if offC = 192 then
      match readWord r5 with
      | none => none
      | some (offA, r6) =>
      match readCalls r6 with
      | none => none
      | some (cs, r7) =>
      if offA = 192 + (callsEnc cs).length then
        match readAttrs r7 with
        | none => none
        | some (attrs, r8) => some (⟨ver, src, dst, salt, cs, attrs⟩, r8)
      else none
    else none
  else none

/-- Modelled from the spec: `decode` (§4.5) — the canonical inverse of the
ABI coder for the bundle schema, accepting exactly the canonical encodings
and rejecting unknown version tags; the whole input must be consumed. -/
def decodeBundle (input : List Nat) : Option Bundle :=
  match readWord input with
  | none => none
  | some (off, r) =>
    if off = 32 then
      match readBundle r with
      | none => none
      | some (b, r2) => if r2 = [] then some b else none
    else none

/-- Range constraints making a bundle representable in the ABI schema, with
the known version tag. -/
def ValidBundle (b : Bundle) : Prop :=
  b.version = 1 ∧ b.sourceChainId < 2 ^ 256 ∧ b.destinationChainId < 2 ^ 256 ∧
    b.interopBundleSalt < 2 ^ 256 ∧ b.calls.length ≤ 2 ^ 32 ∧
    (∀ c ∈ b.calls, ValidCall c) ∧
    (∀ x ∈ b.bundleAttributes.executionAddress, x < 256) ∧
    b.bundleAttributes.executionAddress.length ≤ 2 ^ 32 ∧
    (∀ x ∈ b.bundleAttributes.unbundlerAddress, x < 256) ∧
    b.bundleAttributes.unbundlerAddress.length ≤ 2 ^ 32

instance (b : Bundle) : Decidable (ValidBundle b) := by
  unfold ValidBundle
  infer_instance

theorem callsEnc_length_lt (cs : List Call) (hn : cs.length ≤ 2 ^ 32)
    (hval : ∀ c ∈ cs, ValidCall c) : 192 + (callsEnc cs).length < 2 ^ 256 := by
  have h2 : (callTails cs).length ≤ cs.length * 2 ^ 33 :=
    callTails_length_le cs (2 ^ 33) fun c hc =>
      callEnc_length_le c (hval c hc).2.2.2.2.2
  have h3 : cs.length * 2 ^ 33 ≤ 2 ^ 32 * 2 ^ 33 := Nat.mul_le_mul_right _ hn
  have hlen : (callsEnc cs).length =
      32 + 32 * cs.length + (callTails cs).length := by
    simp [callsEnc, length_wordOf, wordsEnc_length, callOffsets_length]
    ring
  have h5 : 32 * cs.length ≤ 32 * 2 ^ 32 := Nat.mul_le_mul_left _ hn
  have h6 : 224 + 32 * 2 ^ 32 + 2 ^ 32 * 2 ^ 33 < 2 ^ 256 := by norm_num
  omega

theorem readBundle_encode (b : Bundle) (rest : List Nat) (hb : ValidBundle b) :
    readBundle (bundleEnc b ++ rest) = some (b, rest) := by
  obtain ⟨h1, h2, h3, h4, h5, h6, h7, h8, h9, h10⟩ := hb
  unfold readBundle bundleEnc
  simp only [List.append_assoc]
  rw [readB1_encode b.version _ (by omega)]
  dsimp only
  rw [if_pos h1]
  rw [readWord_encode b.sourceChainId _ h2]
  dsimp only
  rw [readWord_encode b.destinationChainId _ h3]
  dsimp only
  rw [readWord_encode b.interopBundleSalt _ h4]
  dsimp only
  rw [readWord_encode 192 _ (by norm_num)]
  dsimp only
  rw [if_pos rfl]
  rw [readWord_encode (192 + (callsEnc b.calls).length) _
    (callsEnc_length_lt b.calls h5 h6)]
  dsimp only
  rw [readCalls_encode b.calls _ h5 h6]
  dsimp only
  rw [if_pos rfl]
  rw [readAttrs_encode b.bundleAttributes rest h7 h8 h9 h10]

theorem readBundle_some (input : List Nat) (b : Bundle) (rest : List Nat)
    (h : readBundle input = some (b, rest)) : input = bundleEnc b ++ rest := by
  unfold readBundle at h
  cases hB1 : readB1 input with
  | none => rw [hB1] at h; simp at h
  | some p1 =>
  obtain ⟨ver, r1⟩ := p1
  rw [hB1] at h
  dsimp only at h
  by_cases hver : ver = 1
  · rw [if_pos hver] at h
    cases hS : readWord r1 with
    | none => rw [hS] at h; simp at h
    | some p2 =>
    obtain ⟨src, r2⟩ := p2
    rw [hS] at h
    dsimp only at h
    cases hD : readWord r2 with
    | none => rw [hD] at h; simp at h
    | some p3 =>
    obtain ⟨dst, r3⟩ := p3
    rw [hD] at h
    dsimp only at h
    cases hSa : readWord r3 with
    | none => rw [hSa] at h; simp at h
    | some p4 =>
    obtain ⟨salt, r4⟩ := p4
    rw [hSa] at h
    dsimp only at h
    cases hOc : readWord r4 with
    | none => rw [hOc] at h; simp at h
    | some p5 =>
    obtain ⟨offC, r5⟩ := p5
    rw [hOc] at h
    dsimp only at h
    by_cases hoc : offC = 192
    · rw [if_pos hoc] at h
      subst hoc
      cases hOa : readWord r5 with
      | none => rw [hOa] at h; simp at h
      | some p6 =>
      obtain ⟨offA, r6⟩ := p6
      rw [hOa] at h
      dsimp only at h
      cases hCs : readCalls r6 with
      | none => rw [hCs] at h; simp at h
      | some p7 =>
      obtain ⟨cs, r7⟩ := p7
      rw [hCs] at h
      dsimp only at h
      by_cases hoa : offA = 192 + (callsEnc cs).length
      · rw [if_pos hoa] at h
        cases hAt : readAttrs r7 with
        | none => rw [hAt] at h; simp at h
        | some p8 =>
          obtain ⟨attrs, r8⟩ := p8
          rw [hAt] at h
          simp only [Option.some.injEq, Prod.mk.injEq] at h
          rcases h with ⟨hbq, hr⟩
          subst hr
          rcases readB1_some input ver r1 hB1 with ⟨e1, _⟩
          rcases readWord_some r1 src r2 hS with ⟨e2, _⟩
          rcases readWord_some r2 dst r3 hD with ⟨e3, _⟩
          rcases readWord_some r3 salt r4 hSa with ⟨e4, _⟩
          rcases readWord_some r4 192 r5 hOc with ⟨e5, _⟩
          rcases readWord_some r5 offA r6 hOa with ⟨e6, _⟩
          have e7 := readCalls_some r6 cs r7 hCs
          have e8 := readAttrs_some r7 attrs r8 hAt
          rw [← hbq, bundleEnc]
          rw [e1, e2, e3, e4, e5, e6, hoa, e7, e8]
          simp [List.append_assoc]
      · rw [if_neg hoa] at h
        simp at h
    · rw [if_neg hoc] at h
      simp at h
  · rw [if_neg hver] at h
    simp at h

/-- C4: for every valid message bundle, decoding its canonical binary
encoding recovers the bundle exactly, and re-encoding any successfully
decoded byte string reproduces the identical bytes — `decode (encode b) = b`
and `encode (decode x) = x` for every well-formed (decoder-accepted)
encoding `x`, under the fixed tuple schema `(version, sourceChainId,
destinationChainId, salt, calls[], bundleAttributes)`. -/
theorem C4_bundle_codec_roundtrip :
    (∀ b, ValidBundle b → decodeBundle (bundleBytes b) = some b) ∧
    (∀ (x : List Nat) (b : Bundle), decodeBundle x = some b → bundleBytes b = x) := by
  constructor
  · intro b hb
    unfold decodeBundle bundleBytes
    rw [readWord_encode 32 _ (by norm_num)]
    dsimp only
    rw [if_pos rfl]
    have hr : readBundle (bundleEnc b) = some (b, []) := by
      have := readBundle_encode b [] hb
      rwa [List.append_nil] at this
    rw [hr]
    dsimp only
    rw [if_pos rfl]
  · intro x b h
    unfold decodeBundle at h
    cases hw : readWord x with
    | none => rw [hw] at h; simp at h
    | some p =>
      obtain ⟨off, r⟩ := p
      rw [hw] at h
      dsimp only at h
      by_cases ho : off = 32
      · rw [if_pos ho] at h
        subst ho
        cases hrb : readBundle r with
        | none => rw [hrb] at h; simp at h
        | some q =>
          obtain ⟨b1, r2⟩ := q
          rw [hrb] at h
          dsimp only at h
          by_cases hr2 : r2 = []
          · rw [if_pos hr2] at h
            simp only [Option.some.injEq] at h
            subst h
            subst hr2
            rcases readWord_some x 32 r hw with ⟨e1, _⟩
            have e2 := readBundle_some r b1 [] hrb
            rw [bundleBytes, e1, e2, List.append_nil]
          · rw [if_neg hr2] at h
            simp at h
      · rw [if_neg ho] at h
        simp at h

/-- A concrete valid bundle exercising every component of the schema. -/
def witnessBundle : Bundle :=
  ⟨1, 1, 2, 3, [⟨1, false, 5, 6, 7, [1, 2, 3]⟩], ⟨[170], []⟩⟩

theorem C4_witness :
    ValidBundle witnessBundle ∧
      decodeBundle (bundleBytes witnessBundle) = some witnessBundle :=
  ⟨by decide, C4_bundle_codec_roundtrip.1 witnessBundle (by decide)⟩

end Interop
